import Mathlib

/-!
Verification of the dingostore storage engine (`src/dingostore/mod.rs`).

Shallow embedding conventions:
* `u64` keys are `Nat` (theorems carry `k < 2^64` where serialization matters);
  `String` values are their UTF-8 byte sequences, modelled as `List Nat`
  (each byte < 256).  `String::from_utf8(v.as_bytes()).unwrap()` is the
  identity on such data, so the decoder's UTF-8 step is not modelled.
* `BTreeMap` is a strictly-sorted association list (`mapInsert` / `assocLookup`),
  generic over a `LinearOrder` on keys so the same code serves the
  `BTreeMap<u64, _>` fields and the `BTreeMap<String, String>` field.
* The filesystem is an association list from path to byte contents.  The
  source opens files with write+create and NO truncate, so writing to an
  existing path overwrites a prefix of the old contents and keeps the tail.
* `SystemTime::now()` is an environment input: operations that may flush take
  the millisecond timestamp as an explicit argument.
* `mem::size_of::<u64>() = 8` and `size_of_val(&val)` for `val : String` is
  the size of the `String` struct itself, 24 bytes on a 64-bit target; these
  constants are inlined where the source uses them.
-/

/-- Big-endian value of a byte list (`u64::from_be_bytes` / `u32::from_be_bytes`). -/
def beVal (l : List Nat) : Nat :=
  l.foldl (fun a b => a * 256 + b) 0

/-- The `w` low-order base-256 digits of `n`, most significant first
(`to_be_bytes`; for `w = 4` this also models the `as u32` truncating cast). -/
def beBytes : Nat → Nat → List Nat
  | 0, _ => []
  | w + 1, n => beBytes w (n / 256) ++ [n % 256]

@[simp] theorem beBytes_length (w n : Nat) : (beBytes w n).length = w := by
  induction w generalizing n with
  | zero => rfl
  | succ w ih => simp [beBytes, ih]

theorem beVal_append_one (l : List Nat) (x : Nat) :
    beVal (l ++ [x]) = beVal l * 256 + x := by
  simp [beVal, List.foldl_append]

theorem beVal_beBytes (w n : Nat) (h : n < 256 ^ w) : beVal (beBytes w n) = n := by
  induction w generalizing n with
  | zero =>
    interval_cases n
    rfl
  | succ w ih =>
    rw [beBytes, beVal_append_one, ih]
    · omega
    · exact Nat.div_lt_of_lt_mul (by rw [pow_succ] at h; omega)

/-- `BTreeMap::get` on an association list (order-insensitive when keys are
distinct). -/
def assocLookup {κ α : Type} [DecidableEq κ] (k : κ) : List (κ × α) → Option α
  | [] => none
  | (k', v) :: rest => if k = k' then some v else assocLookup k rest

/-- Map update for association lists whose order is irrelevant: replace the
binding in place, or append.  Used for the `String`-keyed maps (the set of
flushed files) and for the filesystem; no theorem below observes their order. -/
def listUpdate {κ α : Type} [DecidableEq κ] (k : κ) (v : α) :
    List (κ × α) → List (κ × α)
  | [] => [(k, v)]
  | (k', v') :: rest =>
    if k = k' then (k, v) :: rest else (k', v') :: listUpdate k v rest

theorem assocLookup_listUpdate_self {κ α : Type} [DecidableEq κ] (k : κ) (v : α)
    (l : List (κ × α)) : assocLookup k (listUpdate k v l) = some v := by
  induction l with
  | nil => simp [listUpdate, assocLookup]
  | cons p rest ih =>
    obtain ⟨k', v'⟩ := p
    by_cases h : k = k'
    · simp [listUpdate, h, assocLookup]
    · simp [listUpdate, h, assocLookup, ih]

theorem assocLookup_listUpdate_ne {κ α : Type} [DecidableEq κ] (k j : κ) (v : α)
    (l : List (κ × α)) (hj : j ≠ k) :
    assocLookup j (listUpdate k v l) = assocLookup j l := by
  induction l with
  | nil => simp [listUpdate, assocLookup, hj]
  | cons p rest ih =>
    obtain ⟨k', v'⟩ := p
    by_cases h : k = k'
    · subst h
      simp [listUpdate, assocLookup, hj]
    · by_cases hj' : j = k'
      · simp [listUpdate, h, assocLookup, hj']
      · simp [listUpdate, h, assocLookup, hj', ih]

@[simp] theorem assocLookup_nil {κ α : Type} [DecidableEq κ] (k : κ) :
    assocLookup k ([] : List (κ × α)) = none := rfl

@[simp] theorem assocLookup_cons {κ α : Type} [DecidableEq κ] (k k' : κ) (v : α)
    (rest : List (κ × α)) :
    assocLookup k ((k', v) :: rest) = if k = k' then some v else assocLookup k rest := by
  simp [assocLookup]

section MapModel

variable {κ : Type} [LinearOrder κ] [DecidableEq κ] {α : Type}

/-- `BTreeMap::insert` on a strictly-sorted association list (used for the
`u64`-keyed maps `objs` and `index`). -/
def mapInsert (k : κ) (v : α) : List (κ × α) → List (κ × α)
  | [] => [(k, v)]
  | (k', v') :: rest =>
    if k < k' then (k, v) :: (k', v') :: rest
    else if k = k' then (k, v) :: rest
    else (k', v') :: mapInsert k v rest

theorem mapInsert_cons_lt {k k' : κ} (v v' : α) (rest : List (κ × α)) (h : k < k') :
    mapInsert k v ((k', v') :: rest) = (k, v) :: (k', v') :: rest := by
  simp [mapInsert, h]

theorem mapInsert_cons_eq {k : κ} (v v' : α) (rest : List (κ × α)) :
    mapInsert k v ((k, v') :: rest) = (k, v) :: rest := by
  simp [mapInsert]

theorem mapInsert_cons_gt {k k' : κ} (v v' : α) (rest : List (κ × α)) (h : k' < k) :
    mapInsert k v ((k', v') :: rest) = (k', v') :: mapInsert k v rest := by
  simp [mapInsert, not_lt_of_gt h, ne_of_gt h]

theorem assocLookup_mapInsert_self (k : κ) (v : α) (l : List (κ × α)) :
    assocLookup k (mapInsert k v l) = some v := by
  induction l with
  | nil => simp [mapInsert]
  | cons p rest ih =>
    obtain ⟨k', v'⟩ := p
    rcases lt_trichotomy k k' with h | h | h
    · simp [mapInsert_cons_lt v v' rest h]
    · subst h
      simp [mapInsert_cons_eq]
    · rw [mapInsert_cons_gt v v' rest h]
      simp [ne_of_gt h, ih]

theorem assocLookup_mapInsert_ne (k j : κ) (v : α) (l : List (κ × α)) (hj : j ≠ k) :
    assocLookup j (mapInsert k v l) = assocLookup j l := by
  induction l with
  | nil => simp [mapInsert, hj]
  | cons p rest ih =>
    obtain ⟨k', v'⟩ := p
    rcases lt_trichotomy k k' with h | h | h
    · simp [mapInsert_cons_lt v v' rest h, hj]
    · subst h
      simp [mapInsert_cons_eq, hj]
    · rw [mapInsert_cons_gt v v' rest h]
      by_cases hjk' : j = k'
      · simp [hjk']
      · simp [hjk', ih]

theorem mapInsert_mem_cases (k : κ) (v : α) (l : List (κ × α)) (b : κ × α)
    (hb : b ∈ mapInsert k v l) : b = (k, v) ∨ b ∈ l := by
  induction l with
  | nil => simpa [mapInsert] using hb
  | cons p rest ih =>
    obtain ⟨k', v'⟩ := p
    rcases lt_trichotomy k k' with hlt | heq | hgt
    · rw [mapInsert_cons_lt v v' rest hlt] at hb
      simpa using hb
    · subst heq
      rw [mapInsert_cons_eq v v' rest] at hb
      rcases List.mem_cons.mp hb with h | h
      · exact Or.inl h
      · exact Or.inr (List.mem_cons_of_mem _ h)
    · rw [mapInsert_cons_gt v v' rest hgt] at hb
      rcases List.mem_cons.mp hb with h | h
      · exact Or.inr (h ▸ List.mem_cons_self _ _)
      · rcases ih h with h' | h'
        · exact Or.inl h'
        · exact Or.inr (List.mem_cons_of_mem _ h')

/-- Keys of a sorted map stay sorted under `mapInsert`. -/
theorem mapInsert_pairwise (k : κ) (v : α) (l : List (κ × α))
    (h : l.Pairwise (fun a b => a.1 < b.1)) :
    (mapInsert k v l).Pairwise (fun a b => a.1 < b.1) := by
  induction l with
  | nil => simp [mapInsert]
  | cons p rest ih =>
    obtain ⟨k', v'⟩ := p
    rw [List.pairwise_cons] at h
    obtain ⟨hhead, htail⟩ := h
    rcases lt_trichotomy k k' with hlt | heq | hgt
    · rw [mapInsert_cons_lt v v' rest hlt]
      refine List.Pairwise.cons ?_ (List.Pairwise.cons hhead htail)
      intro b hb
      rcases List.mem_cons.mp hb with hb | hb
      · simpa [hb] using hlt
      · exact lt_trans hlt (hhead b hb)
    · subst heq
      rw [mapInsert_cons_eq v v' rest]
      exact List.Pairwise.cons hhead htail
    · rw [mapInsert_cons_gt v v' rest hgt]
      refine List.Pairwise.cons ?_ (ih htail)
      intro b hb
      rcases mapInsert_mem_cases k v rest b hb with hb' | hb'
      · simpa [hb'] using hgt
      · exact hhead b hb'

end MapModel

theorem assocLookup_eq_none_iff {κ α : Type} [DecidableEq κ] (k : κ) (l : List (κ × α)) :
    assocLookup k l = none ↔ k ∉ l.map Prod.fst := by
  induction l with
  | nil => simp
  | cons p rest ih =>
    obtain ⟨k', v'⟩ := p
    by_cases h : k = k'
    · simp [h]
    · simp [h, ih]

theorem assocLookup_isSome_mem {κ α : Type} [DecidableEq κ] (k : κ) (v : α)
    (l : List (κ × α)) (h : assocLookup k l = some v) : (k, v) ∈ l := by
  induction l with
  | nil => simp at h
  | cons p rest ih =>
    obtain ⟨k', v'⟩ := p
    by_cases hk : k = k'
    · subst hk
      simp at h
      simp [h]
    · simp [hk] at h
      exact List.mem_cons_of_mem _ (ih h)

/-- `DingoStore::serialize`: `key.to_be_bytes() ++ (val.len() as u32).to_be_bytes()
++ val` (the truncating `as u32` cast is absorbed by `beBytes 4`, which keeps
only the low 32 bits). -/
def serialize (key : Nat) (val : List Nat) : List Nat :=
  beBytes 8 key ++ beBytes 4 val.length ++ val

@[simp] theorem serialize_length (key : Nat) (val : List Nat) :
    (serialize key val).length = 12 + val.length := by
  simp [serialize]
  omega

/-- The decoding loop of `DingoStore::try_deserialize`, on raw bytes, yielding
records in file order.  `read_exact` on the 8-byte key or the 4-byte length
failing (fewer bytes remain than requested) exits the loop successfully; a
failing `read_exact` on the value propagates the I/O error via `?`. -/
def decodeAllF : Nat → List Nat → Except Unit (List (Nat × List Nat))
  | 0, _ => .ok []
  | fuel + 1, b =>
    if b.length < 8 then .ok []
    else if (b.drop 8).length < 4 then .ok []
    else if ((b.drop 8).drop 4).length < beVal ((b.drop 8).take 4) then .error ()
    else
      match decodeAllF fuel (((b.drop 8).drop 4).drop (beVal ((b.drop 8).take 4))) with
      | .ok recs =>
        .ok ((beVal (b.take 8), ((b.drop 8).drop 4).take (beVal ((b.drop 8).take 4))) :: recs)
      | .error e => .error e

def decodeAll (b : List Nat) : Except Unit (List (Nat × List Nat)) :=
  decodeAllF b.length b

theorem decodeAllF_congr (f1 : Nat) : ∀ (f2 : Nat) (b : List Nat),
    b.length ≤ f1 → b.length ≤ f2 → decodeAllF f1 b = decodeAllF f2 b := by
  induction f1 with
  | zero =>
    intro f2 b h1 _
    have hb : b = [] := List.eq_nil_of_length_eq_zero (Nat.le_zero.mp h1)
    subst hb
    cases f2 with
    | zero => rfl
    | succ f2 => simp [decodeAllF]
  | succ f1 ih =>
    intro f2 b h1 h2
    cases f2 with
    | zero =>
      have hb : b = [] := List.eq_nil_of_length_eq_zero (Nat.le_zero.mp h2)
      subst hb
      simp [decodeAllF]
    | succ f2 =>
      simp only [decodeAllF]
      by_cases c1 : b.length < 8
      · simp only [if_pos c1]
      · simp only [if_neg c1]
        by_cases c2 : (b.drop 8).length < 4
        · simp only [if_pos c2]
        · simp only [if_neg c2]
          by_cases c3 : ((b.drop 8).drop 4).length < beVal ((b.drop 8).take 4)
          · simp only [if_pos c3]
          · simp only [if_neg c3]
            have hlen : (((b.drop 8).drop 4).drop (beVal ((b.drop 8).take 4))).length
                = b.length - 12 - beVal ((b.drop 8).take 4) := by
              simp only [List.length_drop]
              omega
            rw [ih f2 (((b.drop 8).drop 4).drop (beVal ((b.drop 8).take 4)))
              (by omega) (by omega)]

/-- The decoding loop equation: one `rw` of this peels one frame attempt. -/
theorem decodeAll_eq (b : List Nat) :
    decodeAll b =
      if b.length < 8 then .ok []
      else if (b.drop 8).length < 4 then .ok []
      else if ((b.drop 8).drop 4).length < beVal ((b.drop 8).take 4) then .error ()
      else
        match decodeAll (((b.drop 8).drop 4).drop (beVal ((b.drop 8).take 4))) with
        | .ok recs =>
          .ok ((beVal (b.take 8), ((b.drop 8).drop 4).take (beVal ((b.drop 8).take 4))) :: recs)
        | .error e => .error e := by
  by_cases c0 : b.length = 0
  · have hb : b = [] := List.eq_nil_of_length_eq_zero c0
    subst hb
    simp [decodeAll, decodeAllF]
  · obtain ⟨n, hn⟩ : ∃ n, b.length = n + 1 := ⟨b.length - 1, by omega⟩
    unfold decodeAll
    rw [hn]
    simp only [decodeAllF]
    rw [← hn]
    by_cases c1 : b.length < 8
    · simp only [if_pos c1]
    · simp only [if_neg c1]
      by_cases c2 : (b.drop 8).length < 4
      · simp only [if_pos c2]
      · simp only [if_neg c2]
        by_cases c3 : ((b.drop 8).drop 4).length < beVal ((b.drop 8).take 4)
        · simp only [if_pos c3]
        · simp only [if_neg c3]
          have hlen : (((b.drop 8).drop 4).drop (beVal ((b.drop 8).take 4))).length
              = b.length - 12 - beVal ((b.drop 8).take 4) := by
            simp only [List.length_drop]
            omega
          rw [decodeAllF_congr n
            ((((b.drop 8).drop 4).drop (beVal ((b.drop 8).take 4))).length)
            (((b.drop 8).drop 4).drop (beVal ((b.drop 8).take 4)))
            (by omega) (by omega)]

/-- Bytes of a whole segment as written by `flush`: the concatenation of the
frames of the memtable's records in ascending key order. -/
def segBytes (recs : List (Nat × List Nat)) : List Nat :=
  (recs.map (fun p => serialize p.1 p.2)).flatten

@[simp] theorem segBytes_nil : segBytes [] = [] := rfl

@[simp] theorem segBytes_cons (p : Nat × List Nat) (recs : List (Nat × List Nat)) :
    segBytes (p :: recs) = serialize p.1 p.2 ++ segBytes recs := by
  simp [segBytes]

/-- Bounds that the Rust types impose on a record: a `u64` key and a value
whose length fits in the `u32` length prefix. -/
def RecBounds (recs : List (Nat × List Nat)) : Prop :=
  ∀ p ∈ recs, p.1 < 2 ^ 64 ∧ p.2.length < 2 ^ 32

instance : DecidablePred RecBounds := fun recs =>
  inferInstanceAs (Decidable (∀ p ∈ recs, p.1 < 2 ^ 64 ∧ p.2.length < 2 ^ 32))

theorem decodeAll_short (b : List Nat) (h : b.length < 12) : decodeAll b = .ok [] := by
  rw [decodeAll_eq]
  by_cases h8 : b.length < 8
  · rw [if_pos h8]
  · have h4 : (b.drop 8).length < 4 := by
      simp only [List.length_drop]
      omega
    rw [if_neg h8, if_pos h4]

@[simp] theorem decodeAll_nil : decodeAll [] = .ok [] :=
  decodeAll_short [] (by norm_num)

/-- Parsing one well-formed frame off the front of a byte stream. -/
theorem decodeAll_cons (k : Nat) (v : List Nat) (rest : List Nat)
    (hk : k < 2 ^ 64) (hv : v.length < 2 ^ 32) :
    decodeAll (serialize k v ++ rest) =
      match decodeAll rest with
      | .ok recs => .ok ((k, v) :: recs)
      | .error e => .error e := by
  have hlen : (serialize k v ++ rest).length = 12 + v.length + rest.length := by
    simp
  have htake8 : (serialize k v ++ rest).take 8 = beBytes 8 k := by
    rw [serialize, List.append_assoc, List.append_assoc,
      List.take_append_of_le_length (by simp)]
    simp [List.take_of_length_le]
  have hdrop8 : (serialize k v ++ rest).drop 8 = beBytes 4 v.length ++ (v ++ rest) := by
    rw [serialize, List.append_assoc, List.append_assoc,
      List.drop_append_of_le_length (by simp)]
    simp [List.drop_of_length_le]
  have htake4 : (beBytes 4 v.length ++ (v ++ rest)).take 4 = beBytes 4 v.length := by
    rw [List.take_append_of_le_length (by simp)]
    simp [List.take_of_length_le]
  have hdrop4 : (beBytes 4 v.length ++ (v ++ rest)).drop 4 = v ++ rest := by
    rw [List.drop_append_of_le_length (by simp)]
    simp [List.drop_of_length_le]
  have htakev : (v ++ rest).take v.length = v := List.take_left v rest
  have hdropv : (v ++ rest).drop v.length = rest := List.drop_left v rest
  rw [decodeAll_eq]
  rw [if_neg (by omega)]
  rw [hdrop8, htake4, hdrop4, beVal_beBytes 4 v.length hv]
  rw [if_neg (by simp)]
  rw [if_neg (by simp only [List.length_append]; omega)]
  rw [htakev, hdropv, htake8, beVal_beBytes 8 k hk]

/-- Decoding a stream that starts with well-formed frames parses exactly those
frames, then continues on the remainder. -/
theorem decodeAll_append (recs : List (Nat × List Nat)) (b : List Nat)
    (hb : RecBounds recs) :
    decodeAll (segBytes recs ++ b) =
      match decodeAll b with
      | .ok l => .ok (recs ++ l)
      | .error e => .error e := by
  induction recs with
  | nil =>
    simp only [segBytes_nil, List.nil_append]
    cases decodeAll b <;> simp
  | cons p rest ih =>
    obtain ⟨hk, hv⟩ := hb p (List.mem_cons_self _ _)
    have hb' : RecBounds rest := fun q hq => hb q (List.mem_cons_of_mem _ hq)
    rw [segBytes_cons, List.append_assoc, decodeAll_cons p.1 p.2 _ hk hv, ih hb']
    cases decodeAll b <;> simp

/-- A whole well-formed segment decodes to exactly its records. -/
theorem decodeAll_segBytes (recs : List (Nat × List Nat)) (hb : RecBounds recs) :
    decodeAll (segBytes recs) = .ok recs := by
  have := decodeAll_append recs [] hb
  simpa using this

/-- Rebuilding a `BTreeMap` by inserting records in order (the body of the
decoding loop). -/
def fromRecords (recs : List (Nat × List Nat)) : List (Nat × List Nat) :=
  recs.foldl (fun m p => mapInsert p.1 p.2 m) []

theorem mapInsert_append_of_gt (k : Nat) (v : List Nat) (acc : List (Nat × List Nat))
    (h : ∀ p ∈ acc, p.1 < k) : mapInsert k v acc = acc ++ [(k, v)] := by
  induction acc with
  | nil => rfl
  | cons q rest ih =>
    obtain ⟨k', v'⟩ := q
    have hk' : k' < k := h (k', v') (List.mem_cons_self _ _)
    rw [mapInsert_cons_gt v v' rest hk', ih (fun p hp => h p (List.mem_cons_of_mem _ hp))]
    simp

theorem foldl_mapInsert_sorted (recs acc : List (Nat × List Nat))
    (hacc : ∀ p ∈ acc, ∀ q ∈ recs, p.1 < q.1)
    (hs : recs.Pairwise (fun a b => a.1 < b.1)) :
    recs.foldl (fun m p => mapInsert p.1 p.2 m) acc = acc ++ recs := by
  induction recs generalizing acc with
  | nil => simp
  | cons r rest ih =>
    rw [List.pairwise_cons] at hs
    obtain ⟨hr, hrest⟩ := hs
    have h1 : mapInsert r.1 r.2 acc = acc ++ [r] := by
      rw [mapInsert_append_of_gt r.1 r.2 acc
        (fun p hp => hacc p hp r (List.mem_cons_self _ _))]
    rw [List.foldl_cons, h1, ih (acc ++ [r]) ?_ hrest]
    · simp
    · intro p hp q hq
      rcases List.mem_append.mp hp with hp' | hp'
      · exact hacc p hp' q (List.mem_cons_of_mem _ hq)
      · simp at hp'
        subst hp'
        exact hr q hq

/-- The decoding loop's map-rebuild is the identity on sorted record lists. -/
theorem fromRecords_sorted (recs : List (Nat × List Nat))
    (hs : recs.Pairwise (fun a b => a.1 < b.1)) : fromRecords recs = recs := by
  have := foldl_mapInsert_sorted recs [] (by simp) hs
  simpa [fromRecords] using this

/-! Engine state.  Fields mirror the struct `DingoStore` in the source; the
`Arc<Mutex<..>>` wrappers are dropped (all claims concern the single-threaded
behaviour), and the two maps become sorted association lists. -/

structure Store where
  objs : List (Nat × List Nat)
  keys : List Nat
  fname : String
  treesize : Nat
  flushed_files : List (String × String)
  index : List (Nat × String)
deriving DecidableEq

/-- The filesystem: a map from path to byte contents, as an association list
keyed by `String` (order irrelevant; kept sorted by `mapInsert`). -/
def FS : Type := List (String × List Nat)

instance : DecidableEq FS := inferInstanceAs (DecidableEq (List (String × List Nat)))

/-- `DingoStore::new(fname)`. -/
def newStore (fname : String) : Store :=
  { objs := [], keys := [], fname := fname, treesize := 0,
    flushed_files := [], index := [] }

/-- The flush path `format!("{}_{}.data", self.fname, ts)`. -/
def mkDataFname (fname : String) (ts : Nat) : String :=
  fname ++ "_" ++ toString ts ++ ".data"

/-- Writing `bytes` to a file opened with `.write(true).create(true)` and no
truncate: writing starts at offset 0, so an existing longer file keeps its
tail beyond the written bytes. -/
def fsWrite (fs : FS) (path : String) (bytes : List Nat) : FS :=
  match assocLookup path fs with
  | some old => listUpdate path (bytes ++ old.drop bytes.length) fs
  | none => listUpdate path bytes fs

/-- `DingoStore::flush`, with the millisecond timestamp `ts` supplied by the
environment.  Iterates `objs` in ascending key order, appending each frame to
the data file and pointing `index[key]` at the new file; then records the file
in `flushed_files` and clears the memtable.  The `keys` vec is not touched. -/
def flush (s : Store) (fs : FS) (ts : Nat) : Store × FS :=
  let data_fname := mkDataFname s.fname ts
  let fs' := fsWrite fs data_fname (segBytes s.objs)
  let index' := s.objs.foldl (fun ix p => mapInsert p.1 data_fname ix) s.index
  let ff' := listUpdate data_fname data_fname s.flushed_files
  ({ s with objs := [], treesize := 0, index := index', flushed_files := ff' }, fs')

/-- `DingoStore::insert(key, val, flush)`.  `size_of::<u64>() = 8`;
`size_of_val(&val)` for a `String` is the struct size, 24 bytes on a 64-bit
target, independent of the value's contents. -/
def DingoStore.insert (s : Store) (fs : FS) (ts : Nat) (key : Nat) (val : List Nat)
    (fl : Bool) : Store × FS :=
  let new_size := s.treesize + 8 + 24
  if new_size > 80000 ∧ fl = true then
    let s1 := (flush s fs ts).1
    let objs' := mapInsert key val s1.objs
    ({ s1 with objs := objs', treesize := 8 + 24, keys := objs'.map Prod.fst },
     (flush s fs ts).2)
  else
    let treesize' :=
      match assocLookup key s.objs with
      | some _ => s.treesize - 24 + 24
      | none => s.treesize + 8 + 24
    let objs' := mapInsert key val s.objs
    ({ s with objs := objs', treesize := treesize', keys := objs'.map Prod.fst }, fs)

/-- `DingoStore::try_deserialize(filename)`: open the file (an absent file is
the open error), run the decode loop, and build the fresh store
`DingoStore::new(self.fname)` filled with the decoded records.  The store's
`treesize` counts `size_of::<u64>() + val_len` per decoded frame. -/
def try_deserialize (s : Store) (fs : FS) (filename : String) :
    Except Unit Store :=
  match assocLookup filename fs with
  | none => .error ()
  | some bytes =>
    match decodeAll bytes with
    | .error e => .error e
    | .ok recs =>
      let m := fromRecords recs
      .ok { objs := m, keys := m.map Prod.fst, fname := s.fname,
            treesize := recs.foldl (fun t p => t + 8 + p.2.length) 0,
            flushed_files := [], index := [] }

instance {ε α : Type} [DecidableEq ε] [DecidableEq α] : DecidableEq (Except ε α) :=
  fun a b =>
    match a, b with
    | .ok x, .ok y =>
      if h : x = y then .isTrue (by rw [h]) else .isFalse (by simp [h])
    | .error x, .error y =>
      if h : x = y then .isTrue (by rw [h]) else .isFalse (by simp [h])
    | .ok _, .error _ => .isFalse (by simp)
    | .error _, .ok _ => .isFalse (by simp)

/-- `DingoStore::get(key)`: memtable first, then the exact-key `index` entry,
deserializing that one segment file; any failure or miss yields `None`. -/
def DingoStore.get (s : Store) (fs : FS) (key : Nat) : Option (List Nat) :=
  match assocLookup key s.objs with
  | some val => some val
  | none =>
    match assocLookup key s.index with
    | some data_filename =>
      match try_deserialize s fs data_filename with
      | .ok store =>
        match assocLookup key store.objs with
        | some val => some val
        | none => none
      | .error _ => none
    | none => none

/-- `DingoStore::keys()`. -/
def storeKeys (s : Store) : List Nat :=
  s.keys

/-- `DingoStore::deserialize(filename)`: `DingoStore::new(filename)` followed by
`try_deserialize(filename)`, `Some` on success and `None` on any error. -/
def deserialize (fs : FS) (filename : String) : Option Store :=
  match try_deserialize (newStore filename) fs filename with
  | .ok store => some store
  | .error _ => none

/-- The `masterstore` built inside `DingoStore::compact`: a fresh
`DingoStore::new(self.fname)` into which every readable flushed file's records
are poured via `insert(key, value, false)` (inserts that can never flush and
so never touch the filesystem). -/
def compactMaster (s : Store) (fs : FS) : Store :=
  s.flushed_files.foldl
    (fun m pr =>
      match try_deserialize s fs pr.2 with
      | .ok store => store.objs.foldl (fun m' p => (DingoStore.insert m' fs 0 p.1 p.2 false).1) m
      | .error _ => m)
    (newStore s.fname)

/-- `DingoStore::compact`, with the timestamp of its final flush supplied by
the environment: build the masterstore, then flush it.  `self` is read but
never written, and the masterstore (with its freshly written segment
registered only in its own maps) is dropped. -/
def compact (s : Store) (fs : FS) (ts : Nat) : Store × FS :=
  (s, (flush (compactMaster s fs) fs ts).2)

/-! Characterization lemmas for the engine operations. -/

theorem fsWrite_lookup_ne (fs : FS) (path f : String) (b : List Nat) (hf : f ≠ path) :
    assocLookup f (fsWrite fs path b) = assocLookup f fs := by
  unfold fsWrite
  cases assocLookup path fs with
  | none => exact assocLookup_listUpdate_ne path f b fs hf
  | some old => exact assocLookup_listUpdate_ne path f _ fs hf

theorem fsWrite_lookup_fresh (fs : FS) (path : String) (b : List Nat)
    (h : assocLookup path fs = none) :
    assocLookup path (fsWrite fs path b) = some b := by
  unfold fsWrite
  rw [h]
  exact assocLookup_listUpdate_self path b fs

theorem fsWrite_lookup_existing (fs : FS) (path : String) (b old : List Nat)
    (h : assocLookup path fs = some old) :
    assocLookup path (fsWrite fs path b) = some (b ++ old.drop b.length) := by
  unfold fsWrite
  rw [h]
  exact assocLookup_listUpdate_self path _ fs

theorem flush_fields (s : Store) (fs : FS) (ts : Nat) :
    (flush s fs ts).1.objs = [] ∧ (flush s fs ts).1.treesize = 0 ∧
    (flush s fs ts).1.keys = s.keys ∧ (flush s fs ts).1.fname = s.fname ∧
    (flush s fs ts).2 = fsWrite fs (mkDataFname s.fname ts) (segBytes s.objs) := by
  refine ⟨rfl, rfl, rfl, rfl, rfl⟩

theorem foldl_mapInsert_const_lookup (fname : String) (l : List (Nat × List Nat))
    (ix : List (Nat × String)) (k : Nat) :
    assocLookup k (l.foldl (fun ix p => mapInsert p.1 fname ix) ix) =
      if k ∈ l.map Prod.fst then some fname else assocLookup k ix := by
  induction l generalizing ix with
  | nil => simp
  | cons p rest ih =>
    obtain ⟨k', v'⟩ := p
    rw [List.foldl_cons, ih]
    by_cases hmem : k ∈ rest.map Prod.fst
    · simp [hmem]
    · by_cases hk : k = k'
      · subst hk
        simp [hmem, assocLookup_mapInsert_self]
      · simp [hmem, hk, assocLookup_mapInsert_ne k' k fname ix hk]

theorem flush_index_lookup (s : Store) (fs : FS) (ts : Nat) (k : Nat) :
    assocLookup k (flush s fs ts).1.index =
      if k ∈ s.objs.map Prod.fst then some (mkDataFname s.fname ts)
      else assocLookup k s.index := by
  exact foldl_mapInsert_const_lookup (mkDataFname s.fname ts) s.objs s.index k

theorem try_deserialize_ok_of_decode (s2 : Store) (fs : FS) (f : String)
    (bytes : List Nat) (recs : List (Nat × List Nat))
    (hf : assocLookup f fs = some bytes) (hd : decodeAll bytes = .ok recs)
    (hs : recs.Pairwise (fun a b => a.1 < b.1)) :
    try_deserialize s2 fs f =
      .ok { objs := recs, keys := recs.map Prod.fst, fname := s2.fname,
            treesize := recs.foldl (fun t p => t + 8 + p.2.length) 0,
            flushed_files := [], index := [] } := by
  simp only [try_deserialize, hf, hd]
  simp [fromRecords_sorted recs hs]

theorem try_deserialize_absent (s2 : Store) (fs : FS) (f : String)
    (hf : assocLookup f fs = none) : try_deserialize s2 fs f = .error () := by
  simp only [try_deserialize, hf]

theorem get_objs_some (s : Store) (fs : FS) (k : Nat) (v : List Nat)
    (h : assocLookup k s.objs = some v) : DingoStore.get s fs k = some v := by
  simp only [DingoStore.get, h]

theorem get_via_index (s : Store) (fs : FS) (k : Nat) (v : List Nat) (f : String)
    (st : Store) (h1 : assocLookup k s.objs = none)
    (h2 : assocLookup k s.index = some f) (h3 : try_deserialize s fs f = .ok st)
    (h4 : assocLookup k st.objs = some v) : DingoStore.get s fs k = some v := by
  simp only [DingoStore.get, h1, h2, h3, h4]

theorem get_no_index (s : Store) (fs : FS) (k : Nat)
    (h1 : assocLookup k s.objs = none) (h2 : assocLookup k s.index = none) :
    DingoStore.get s fs k = none := by
  simp only [DingoStore.get, h1, h2]

theorem get_index_error (s : Store) (fs : FS) (k : Nat) (f : String)
    (h1 : assocLookup k s.objs = none) (h2 : assocLookup k s.index = some f)
    (h3 : try_deserialize s fs f = .error ()) : DingoStore.get s fs k = none := by
  simp only [DingoStore.get, h1, h2, h3]

theorem decodeAll_overrun (b : List Nat) (hlen : 12 ≤ b.length)
    (hover : b.length - 12 < beVal ((b.drop 8).take 4)) : decodeAll b = .error () := by
  rw [decodeAll_eq]
  rw [if_neg (by omega)]
  rw [if_neg (by simp only [List.length_drop]; omega)]
  rw [if_pos (by simp only [List.length_drop]; omega)]

theorem fsWrite_lookup_self_isSome (fs : FS) (path : String) (b : List Nat) :
    (assocLookup path (fsWrite fs path b)).isSome = true := by
  cases h : assocLookup path fs with
  | none => rw [fsWrite_lookup_fresh fs path b h]; rfl
  | some old => rw [fsWrite_lookup_existing fs path b old h]; rfl

/-! ## Claim C2 (size accounting)

The source computes the memtable size with `size_of_val(&val)`, which for a
`String` value is the size of the `String` struct (24 bytes on a 64-bit
target), not the value's byte length, and adds `size_of::<u64>() = 8` per new
key rather than the 12 bytes (key + length prefix) that `serialize` actually
writes.  So the reported size is 32 per distinct key, independent of the
values, while the engine's own on-disk frame for an entry occupies
`12 + |v|` bytes. -/

/-- The quantity the claim says `treesize` should equal: the sum over current
entries of `12 + |v|`. -/
def claimedSize (m : List (Nat × List Nat)) : Nat :=
  (m.map (fun p => 12 + p.2.length)).sum

/-- Claim C2: after `insert(0, "a", true)` on a fresh engine (no flush occurs),
the code reports memtable size 32 while the claimed sum `Σ (12 + |v|)` is 13;
the stated size-accounting law fails on the very first insert. -/
theorem C2_size_accounting_failing_input :
    (DingoStore.insert (newStore "p") [] 0 0 [97] true).1.objs = [(0, [97])] ∧
    (DingoStore.insert (newStore "p") [] 0 0 [97] true).1.treesize = 32 ∧
    claimedSize (DingoStore.insert (newStore "p") [] 0 0 [97] true).1.objs = 13 ∧
    (DingoStore.insert (newStore "p") [] 0 0 [97] true).1.treesize ≠
      claimedSize (DingoStore.insert (newStore "p") [] 0 0 [97] true).1.objs := by
  decide

/-! ## Claim C4 (decoder error classification) -/

/-- Claim C4 counterexample: a segment file consisting of one single byte ends
mid-record (EOF inside the 8-byte key field), yet the decoder reports a
successful end of decoding rather than an error. -/
theorem C4_decoder_eof_counterexample :
    decodeAll [0] = .ok [] ∧ decodeAll [0] ≠ .error () := by
  decide

/-- Claim C4 (amended): EOF at a record boundary ends decoding successfully
with the records so far, but so does EOF anywhere inside the 8-byte key field
or the 4-byte length field (fewer than 12 trailing bytes are silently
dropped); only a `value_len` describing more bytes than remain in the file
yields the error. -/
theorem C4_decoder_classification_amended (recs : List (Nat × List Nat))
    (b : List Nat) (hb : RecBounds recs) :
    (b.length = 0 → decodeAll (segBytes recs ++ b) = .ok recs) ∧
    (0 < b.length → b.length < 12 → decodeAll (segBytes recs ++ b) = .ok recs) ∧
    (12 ≤ b.length → b.length - 12 < beVal ((b.drop 8).take 4) →
      decodeAll (segBytes recs ++ b) = .error ()) := by
  refine ⟨?_, ?_, ?_⟩
  · intro h0
    rw [decodeAll_append recs b hb, decodeAll_short b (by omega)]
    simp
  · intro _ h12
    rw [decodeAll_append recs b hb, decodeAll_short b h12]
    simp
  · intro hlen hover
    rw [decodeAll_append recs b hb, decodeAll_overrun b hlen hover]

/-- Witness for C4 (amended): concrete instances of all three branches, for
one well-formed frame followed by a 1-byte tail, a 5-byte tail, and a 12-byte
header announcing 9 value bytes that are not there. -/
theorem C4_decoder_classification_amended_witness :
    decodeAll (segBytes [(1, [65])] ++ []) = .ok [(1, [65])] ∧
    decodeAll (segBytes [(1, [65])] ++ [9, 9, 9, 9, 9]) = .ok [(1, [65])] ∧
    decodeAll (segBytes [(1, [65])] ++ [0, 0, 0, 0, 0, 0, 0, 2, 0, 0, 0, 9]) =
      .error () := by
  refine ⟨(C4_decoder_classification_amended [(1, [65])] [] (by decide)).1 (by decide),
    (C4_decoder_classification_amended [(1, [65])] [9, 9, 9, 9, 9] (by decide)).2.1
      (by decide) (by decide),
    (C4_decoder_classification_amended [(1, [65])] [0, 0, 0, 0, 0, 0, 0, 2, 0, 0, 0, 9]
      (by decide)).2.2 (by decide) (by decide)⟩

/-! ## Claim C5 (lookup error surfacing)

`get` returns `Option<String>`; when `try_deserialize` fails (unopenable or
corrupt segment) the `if let Ok(store)` pattern falls through and `get`
returns `None`, indistinguishable from a missing key. -/

/-- An engine whose index points key 7 at file "f". -/
def exStore5 : Store :=
  { objs := [], keys := [], fname := "p", treesize := 0,
    flushed_files := [("f", "f")], index := [(7, "f")] }

/-- A filesystem where "f" holds a corrupt segment: a full header announcing
5 value bytes, followed by nothing. -/
def exFS5 : FS := [("f", [0, 0, 0, 0, 0, 0, 0, 7, 0, 0, 0, 5])]

/-- Claim C5 counterexample: the segment file selected for key 7 is corrupt
(decoding it fails), yet `get` masks the failure and returns `None` instead
of propagating the error. -/
theorem C5_error_masking_counterexample :
    try_deserialize exStore5 exFS5 "f" = .error () ∧
    DingoStore.get exStore5 exFS5 7 = none := by
  decide

/-- Claim C5 (amended): when the key misses the memtable, the index selects a
segment file, and reading or decoding that file fails, `get` returns `None`;
the I/O or corruption error is swallowed, not surfaced (the return type
`Option<String>` cannot carry it). -/
theorem C5_error_masking_amended (s : Store) (fs : FS) (k : Nat) (f : String)
    (h1 : assocLookup k s.objs = none) (h2 : assocLookup k s.index = some f)
    (h3 : try_deserialize s fs f = .error ()) : DingoStore.get s fs k = none :=
  get_index_error s fs k f h1 h2 h3

/-- Witness for C5 (amended) at the concrete corrupt-segment engine. -/
theorem C5_error_masking_amended_witness : DingoStore.get exStore5 exFS5 7 = none :=
  C5_error_masking_amended exStore5 exFS5 7 "f" (by decide) (by decide) (by decide)

/-! ## Claim C9 (flush path freshness)

The source's flush path is `format!("{}_{}.data", self.fname, ts)` — there is
no disambiguating counter — and the file is opened without truncate, so two
flushes in the same millisecond write to the same path. -/

/-- Two flushes of one engine with the same millisecond timestamp: insert key 1,
flush at ts=5, insert key 2, flush again at ts=5. -/
def c9run : Store × FS :=
  let a := DingoStore.insert (newStore "p") [] 0 1 [97] true
  let b := flush a.1 a.2 5
  let c := DingoStore.insert b.1 b.2 0 2 [98, 99] true
  flush c.1 c.2 5

/-- Claim C9 counterexample: after two flushes that share the timestamp 5 the
filesystem holds a single file — the second flush reused the first one's path
`p_5.data` instead of choosing a distinct one — and key 1's flushed record has
been destroyed: `get 1` now returns `None`. -/
theorem C9_path_collision_counterexample :
    mkDataFname "p" 5 = "p_5.data" ∧
    c9run.2.map Prod.fst = ["p_5.data"] ∧
    DingoStore.get c9run.1 c9run.2 1 = none := by
  decide

/-- Claim C9 (amended): every flush writes to exactly the path
`<prefix>_<timestamp_ms>.data` — the filesystem changes at that path and at no
other — and no counter is ever appended, so flushes sharing a timestamp reuse
the same path. -/
theorem C9_flush_path_amended (s : Store) (fs : FS) (ts : Nat) (f : String) :
    (assocLookup (mkDataFname s.fname ts) (flush s fs ts).2).isSome = true ∧
    (f ≠ mkDataFname s.fname ts → assocLookup f (flush s fs ts).2 = assocLookup f fs) := by
  constructor
  · exact fsWrite_lookup_self_isSome fs (mkDataFname s.fname ts) (segBytes s.objs)
  · intro hf
    exact fsWrite_lookup_ne fs (mkDataFname s.fname ts) f (segBytes s.objs) hf

/-- Witness for C9 (amended) at a concrete flush. -/
theorem C9_flush_path_amended_witness :
    (assocLookup (mkDataFname "p" 0) (flush (newStore "p") [] 0).2).isSome = true ∧
    assocLookup "q" (flush (newStore "p") [] 0).2 = assocLookup "q" ([] : FS) :=
  ⟨(C9_flush_path_amended (newStore "p") [] 0 "q").1,
   (C9_flush_path_amended (newStore "p") [] 0 "q").2 (by decide)⟩

/-! ## Claim C10 (keys vec after insert) -/

/-- Claim C10: after every `insert` — in both the flush-triggering and the
plain branch — the cached `keys` vec equals the ascending list of the
memtable's keys; in particular an insert that triggered a flush leaves
`keys() = [k]`. -/
theorem C10_keys_after_insert (s : Store) (fs : FS) (ts k : Nat) (v : List Nat)
    (fl : Bool) (hs : s.objs.Pairwise (fun a b => a.1 < b.1)) :
    storeKeys (DingoStore.insert s fs ts k v fl).1 =
      (DingoStore.insert s fs ts k v fl).1.objs.map Prod.fst ∧
    (storeKeys (DingoStore.insert s fs ts k v fl).1).Pairwise (· < ·) ∧
    (s.treesize + 8 + 24 > 80000 ∧ fl = true →
      storeKeys (DingoStore.insert s fs ts k v fl).1 = [k]) := by
  by_cases hc : s.treesize + 8 + 24 > 80000 ∧ fl = true
  · simp only [DingoStore.insert, if_pos hc, storeKeys]
    have hobjs : (flush s fs ts).1.objs = [] := rfl
    rw [hobjs]
    refine ⟨by trivial, ?_, fun _ => ?_⟩
    · simp [mapInsert]
    · simp [mapInsert]
  · simp only [DingoStore.insert, if_neg hc, storeKeys]
    refine ⟨by trivial, ?_, fun h => absurd h hc⟩
    rw [List.pairwise_map]
    exact mapInsert_pairwise k v s.objs hs

/-- A store sitting at the flush threshold, used as the C10 witness input. -/
def c10store : Store :=
  { objs := [(1, [97])], keys := [1], fname := "p", treesize := 79999,
    flushed_files := [], index := [] }

/-- Witness for C10: inserting key 5 into a store at the flush threshold
triggers a flush and leaves exactly `[5]` in the keys vec. -/
theorem C10_keys_after_insert_witness :
    storeKeys (DingoStore.insert c10store [] 7 5 [98] true).1 = [5] :=
  (C10_keys_after_insert c10store [] 7 5 [98] true (by decide)).2.2 (by decide)

/-! ## Claim C3 (flush postcondition) -/

/-- Claim C3: flushing a (non-empty) memtable to a fresh path empties the
memtable, zeroes its reported size, and the new segment file's bytes decode to
exactly the records the memtable held, whose keys are strictly ascending with
no duplicates. -/
theorem C3_flush_postcondition (s : Store) (fs : FS) (ts : Nat)
    (_hne : s.objs ≠ [])
    (hsort : s.objs.Pairwise (fun a b => a.1 < b.1))
    (hb : RecBounds s.objs)
    (hfresh : assocLookup (mkDataFname s.fname ts) fs = none) :
    (flush s fs ts).1.objs = [] ∧
    (flush s fs ts).1.treesize = 0 ∧
    assocLookup (mkDataFname s.fname ts) (flush s fs ts).2 = some (segBytes s.objs) ∧
    decodeAll (segBytes s.objs) = .ok s.objs ∧
    (s.objs.map Prod.fst).Pairwise (· < ·) := by
  refine ⟨rfl, rfl, ?_, decodeAll_segBytes s.objs hb, ?_⟩
  · exact fsWrite_lookup_fresh fs (mkDataFname s.fname ts) (segBytes s.objs) hfresh
  · rw [List.pairwise_map]
    exact hsort

/-- The two-record store used as the C3 witness input. -/
def c3store : Store :=
  { objs := [(1, [97]), (3, [98])], keys := [1, 3], fname := "p", treesize := 64,
    flushed_files := [], index := [] }

/-- Witness for C3 at a concrete two-record memtable flushed to an empty
filesystem. -/
theorem C3_flush_postcondition_witness :
    (flush c3store [] 0).1.objs = [] ∧
    (flush c3store [] 0).1.treesize = 0 ∧
    assocLookup (mkDataFname "p" 0) (flush c3store [] 0).2 =
      some (segBytes [(1, [97]), (3, [98])]) ∧
    decodeAll (segBytes [(1, [97]), (3, [98])]) = .ok [(1, [97]), (3, [98])] ∧
    ([(1, [97]), (3, [98])].map (Prod.fst (β := List Nat))).Pairwise (· < ·) :=
  C3_flush_postcondition c3store [] 0 (by decide) (by decide) (by decide) (by decide)

/-! ## Claim C6 (directory lookup rule)

The source has no min-key directory: `index` maps every flushed key to the
file of its most recent flush, and `get` looks the key up exactly.  A key
that was never flushed finds nothing, even when a registered segment's key
range covers it. -/

/-- Modelled from the spec: `locate(k)` over a directory of (min key, path)
entries "returns the path whose minimum key is the greatest key less than or
equal to k; if no such entry exists (k is below every registered minimum),
returns none".  The source contains no such operation; this definition exists
only to compare the spec's rule with what the code does. -/
def locateSpec (dir : List (Nat × String)) (k : Nat) : Option String :=
  ((dir.filter (fun p => p.1 ≤ k)).getLast?).map Prod.snd

/-- Insert keys 1 and 3 into a fresh engine and flush at ts 0: one segment,
min key 1, holding keys {1, 3}. -/
def c6run : Store × FS :=
  let a := DingoStore.insert (newStore "p") [] 0 1 [97] true
  let b := DingoStore.insert a.1 a.2 0 3 [98] true
  flush b.1 b.2 0

/-- Claim C6 counterexample: after flushing keys {1, 3} the engine has exactly
one registered segment, `p_0.data`, whose minimum key is 1.  For the lookup
key 2 (absent from the memtable) the spec's directory rule returns that
segment's path (1 is the greatest min key ≤ 2, and 2 is not below every
minimum), but the code's directory lookup — an exact lookup of 2 in `index` —
returns none, and `get 2` returns none without consulting any segment. -/
theorem C6_directory_rule_counterexample :
    assocLookup 2 c6run.1.objs = none ∧
    c6run.1.flushed_files = [("p_0.data", "p_0.data")] ∧
    (try_deserialize c6run.1 c6run.2 "p_0.data").map (fun st => st.keys) = .ok [1, 3] ∧
    locateSpec [(1, "p_0.data")] 2 = some "p_0.data" ∧
    assocLookup 2 c6run.1.index = none ∧
    DingoStore.get c6run.1 c6run.2 2 = none := by
  decide

/-- Claim C6 (amended): the lookup structure consulted by `get` is an exact
per-key map, not a min-key directory: a flush points every key it drained at
the new file and leaves other keys' entries unchanged, and for a key with no
entry (never flushed) `get` returns none without reading any segment. -/
theorem C6_directory_rule_amended (s : Store) (fs : FS) (ts k : Nat) :
    (k ∈ s.objs.map Prod.fst →
      assocLookup k (flush s fs ts).1.index = some (mkDataFname s.fname ts)) ∧
    (k ∉ s.objs.map Prod.fst →
      assocLookup k (flush s fs ts).1.index = assocLookup k s.index) ∧
    (assocLookup k s.objs = none → assocLookup k s.index = none →
      DingoStore.get s fs k = none) := by
  refine ⟨?_, ?_, get_no_index s fs k⟩
  · intro hmem
    rw [flush_index_lookup, if_pos hmem]
  · intro hmem
    rw [flush_index_lookup, if_neg hmem]

/-- Witness for C6 (amended) at the concrete two-record store: key 1 is
redirected to the new segment, key 2 keeps its (absent) entry, and a fresh
engine's `get 2` is none. -/
theorem C6_directory_rule_amended_witness :
    assocLookup 1 (flush c3store [] 0).1.index = some (mkDataFname "p" 0) ∧
    assocLookup 2 (flush c3store [] 0).1.index = assocLookup 2 c3store.index ∧
    DingoStore.get (newStore "p") [] 2 = none :=
  ⟨(C6_directory_rule_amended c3store [] 0 1).1 (by decide),
   (C6_directory_rule_amended c3store [] 0 2).2.1 (by decide),
   (C6_directory_rule_amended (newStore "p") [] 0 2).2.2 (by decide) (by decide)⟩

/-! ## Claim C8 (compaction supersession) -/

theorem insert_fname (m : Store) (fs : FS) (ts k : Nat) (v : List Nat) (fl : Bool) :
    (DingoStore.insert m fs ts k v fl).1.fname = m.fname := by
  by_cases hc : m.treesize + 8 + 24 > 80000 ∧ fl = true
  · simp only [DingoStore.insert, if_pos hc]
    rfl
  · simp only [DingoStore.insert, if_neg hc]

theorem foldl_insert_fname (fs : FS) (recs : List (Nat × List Nat)) (m : Store) :
    (recs.foldl (fun m' p => (DingoStore.insert m' fs 0 p.1 p.2 false).1) m).fname
      = m.fname := by
  induction recs generalizing m with
  | nil => rfl
  | cons p rest ih => rw [List.foldl_cons, ih, insert_fname]

theorem compactMaster_fname (s : Store) (fs : FS) :
    (compactMaster s fs).fname = s.fname := by
  unfold compactMaster
  generalize hm : newStore s.fname = m0
  have hm0 : m0.fname = s.fname := by rw [← hm]; rfl
  clear hm
  induction s.flushed_files generalizing m0 with
  | nil => exact hm0
  | cons pr rest ih =>
    rw [List.foldl_cons]
    cases h : try_deserialize s fs pr.2 with
    | ok store =>
      simp only [h]
      exact ih _ (by rw [foldl_insert_fname]; exact hm0)
    | error e =>
      simp only [h]
      exact ih _ hm0

/-- A registered one-record segment, as input for the C8 counterexample. -/
def c8store : Store :=
  { objs := [], keys := [1], fname := "p", treesize := 0,
    flushed_files := [("p_0.data", "p_0.data")], index := [(1, "p_0.data")] }

def c8fs : FS := [("p_0.data", segBytes [(1, [97])])]

/-- Claim C8 counterexample: compacting the engine's single registered segment
(at ts 1) leaves the engine completely unchanged — the retired segment's
directory entry is not removed, its file is not deleted, and the merged
segment `p_1.data`, although written to disk, is registered in neither the
engine's flushed-file set nor its index. -/
theorem C8_compaction_counterexample :
    (compact c8store c8fs 1).1 = c8store ∧
    assocLookup "p_0.data" (compact c8store c8fs 1).2 = some (segBytes [(1, [97])]) ∧
    assocLookup (mkDataFname "p" 1) (compact c8store c8fs 1).2 =
      some (segBytes [(1, [97])]) ∧
    assocLookup (mkDataFname "p" 1) (compact c8store c8fs 1).1.flushed_files = none ∧
    (compact c8store c8fs 1).1.index = [(1, "p_0.data")] := by
  decide

/-- Claim C8 (amended): compaction merges the readable flushed files into a
temporary store and writes the merged records as one new segment file at
`<prefix>_<ts>.data`, leaving every other path untouched; but the engine
itself is returned unchanged — no directory entry is replaced or removed, no
retired file is deleted, and the new segment is registered only in the
discarded temporary store. -/
theorem C8_compaction_amended (s : Store) (fs : FS) (ts : Nat) :
    (compact s fs ts).1 = s ∧
    (assocLookup (mkDataFname s.fname ts) (compact s fs ts).2).isSome = true ∧
    ∀ f, f ≠ mkDataFname s.fname ts →
      assocLookup f (compact s fs ts).2 = assocLookup f fs := by
  have h2 : (compact s fs ts).2 =
      fsWrite fs (mkDataFname (compactMaster s fs).fname ts)
        (segBytes (compactMaster s fs).objs) := rfl
  refine ⟨rfl, ?_, ?_⟩
  · rw [h2, compactMaster_fname]
    exact fsWrite_lookup_self_isSome fs _ _
  · intro f hf
    rw [h2, compactMaster_fname]
    exact fsWrite_lookup_ne fs _ f _ hf

/-- Witness for C8 (amended) at the concrete one-segment engine. -/
theorem C8_compaction_amended_witness :
    (compact c8store c8fs 1).1 = c8store ∧
    (assocLookup (mkDataFname "p" 1) (compact c8store c8fs 1).2).isSome = true ∧
    assocLookup "other" (compact c8store c8fs 1).2 = assocLookup "other" c8fs :=
  ⟨(C8_compaction_amended c8store c8fs 1).1,
   (C8_compaction_amended c8store c8fs 1).2.1,
   (C8_compaction_amended c8store c8fs 1).2.2 "other" (by decide)⟩

/-! ## Claim C7 (reopen)

The source's only reopen path is `DingoStore::deserialize(filename)`, which
takes a single segment file's exact path — there is no scanning for files
matching a prefix — and loads that file's records into the fresh store's
`objs`, i.e. into the memtable; the segment directory (`index`,
`flushed_files`) of the resulting engine is empty. -/

def c7fs : FS := [("f", segBytes [(2, [98])])]

/-- Claim C7 counterexample: reopening from a segment file holding the record
(2, "b") yields an engine whose memtable contains that record — not the empty
memtable the claim requires. -/
theorem C7_reopen_counterexample :
    (deserialize c7fs "f").map (fun st => st.objs) = some [(2, [98])] ∧
    (deserialize c7fs "f").map (fun st => st.objs) ≠ some [] := by
  decide

/-- Flush keys {1, 2, 3} with values v1, v2, v3 from a fresh engine. -/
def c7run (v1 v2 v3 : List Nat) : Store × FS :=
  let a := DingoStore.insert (newStore "p") [] 0 1 v1 true
  let b := DingoStore.insert a.1 a.2 0 2 v2 true
  let c := DingoStore.insert b.1 b.2 0 3 v3 true
  flush c.1 c.2 0

/-- Claim C7 (amended): reopening happens per file, not per prefix: after
flushing keys {1,2,3}, `deserialize` of the flushed file's exact path yields
an engine whose memtable holds exactly the three flushed records and whose
segment directory is empty, and `get 2` returns the originally stored value —
served from the memtable, not from a rebuilt directory. -/
theorem C7_reopen_amended (v1 v2 v3 : List Nat)
    (h1 : v1.length < 2 ^ 32) (h2 : v2.length < 2 ^ 32) (h3 : v3.length < 2 ^ 32) :
    (deserialize (c7run v1 v2 v3).2 (mkDataFname "p" 0)).map (fun st => st.objs)
      = some [(1, v1), (2, v2), (3, v3)] ∧
    (deserialize (c7run v1 v2 v3).2 (mkDataFname "p" 0)).map (fun st => st.index)
      = some [] ∧
    (deserialize (c7run v1 v2 v3).2 (mkDataFname "p" 0)).map
      (fun st => DingoStore.get st (c7run v1 v2 v3).2 2) = some (some v2) := by
  have hfs : (c7run v1 v2 v3).2 =
      [(mkDataFname "p" 0, segBytes [(1, v1), (2, v2), (3, v3)])] := by
    simp [c7run, DingoStore.insert, newStore, flush, mapInsert, fsWrite, listUpdate]
  have hrb : RecBounds [(1, v1), (2, v2), (3, v3)] := by
    intro p hp
    simp only [List.mem_cons, List.not_mem_nil, or_false] at hp
    rcases hp with hp | hp | hp <;> subst hp <;> exact ⟨by norm_num, by assumption⟩
  have hdec : decodeAll (segBytes [(1, v1), (2, v2), (3, v3)])
      = .ok [(1, v1), (2, v2), (3, v3)] :=
    decodeAll_segBytes _ hrb
  have hdes : try_deserialize (newStore (mkDataFname "p" 0)) (c7run v1 v2 v3).2
      (mkDataFname "p" 0) =
      .ok { objs := [(1, v1), (2, v2), (3, v3)],
            keys := [(1, v1), (2, v2), (3, v3)].map Prod.fst,
            fname := mkDataFname "p" 0,
            treesize := [(1, v1), (2, v2), (3, v3)].foldl
              (fun t p => t + 8 + p.2.length) 0,
            flushed_files := [], index := [] } := by
    refine try_deserialize_ok_of_decode _ _ _ _ _ ?_ hdec (by simp)
    rw [hfs]
    simp
  unfold deserialize
  rw [hdes]
  refine ⟨by simp, by simp, ?_⟩
  refine congrArg some ?_
  apply get_objs_some
  simp

/-- Witness for C7 (amended) at concrete one-byte values. -/
theorem C7_reopen_amended_witness :
    (deserialize (c7run [97] [98] [99]).2 (mkDataFname "p" 0)).map (fun st => st.objs)
      = some [(1, [97]), (2, [98]), (3, [99])] ∧
    (deserialize (c7run [97] [98] [99]).2 (mkDataFname "p" 0)).map (fun st => st.index)
      = some [] ∧
    (deserialize (c7run [97] [98] [99]).2 (mkDataFname "p" 0)).map
      (fun st => DingoStore.get st (c7run [97] [98] [99]).2 2) = some (some [98]) :=
  C7_reopen_amended [97] [98] [99] (by norm_num) (by norm_num) (by norm_num)

/-! ## Claim C1 (round-trip)

A run of `insert(k, v, true)` operations is modelled as a list of
(key, value, timestamp) triples, the timestamp being what `SystemTime::now()`
would return if that insert triggers a flush.  The required environment
assumption, checked by `runFresh`, is that a triggered flush's path does not
already exist (the source offers no defence against a colliding path: see
claim C9). -/

/-- Run a sequence of `insert(k, v, true)` calls against one engine. -/
def runInserts : Store → FS → List (Nat × List Nat × Nat) → Store × FS
  | s, fs, [] => (s, fs)
  | s, fs, (k, v, t) :: rest =>
    runInserts (DingoStore.insert s fs t k v true).1
      (DingoStore.insert s fs t k v true).2 rest

/-- Freshness of flush paths along a run: whenever a step would trigger a
flush, the path that flush would write does not already exist. -/
def runFresh : Store → FS → List (Nat × List Nat × Nat) → Bool
  | _, _, [] => true
  | s, fs, (k, v, t) :: rest =>
    (if s.treesize + 8 + 24 > 80000
      then decide (assocLookup (mkDataFname s.fname t) fs = none) else true)
    && runFresh (DingoStore.insert s fs t k v true).1
         (DingoStore.insert s fs t k v true).2 rest

/-- Key `k` is readable with value `v` on state `(s, fs)`: either from the
memtable, or — missing there — from the segment file its index entry names. -/
def Served (s : Store) (fs : FS) (k : Nat) (v : List Nat) : Prop :=
  assocLookup k s.objs = some v ∨
    (assocLookup k s.objs = none ∧
      ∃ f st, assocLookup k s.index = some f ∧
        try_deserialize s fs f = .ok st ∧ assocLookup k st.objs = some v)

/-- Run invariant: every written record is readable, and the memtable is a
sorted map of records within the `u64`/`u32` bounds. -/
structure RunInv (s : Store) (fs : FS) (written : List (Nat × List Nat)) : Prop where
  served : ∀ kv ∈ written, Served s fs kv.1 kv.2
  sorted : s.objs.Pairwise (fun a b => a.1 < b.1)
  bounds : RecBounds s.objs

theorem assocLookup_some_mem_fst {κ α : Type} [DecidableEq κ] (k : κ) (v : α)
    (l : List (κ × α)) (h : assocLookup k l = some v) : k ∈ l.map Prod.fst :=
  List.mem_map.mpr ⟨(k, v), assocLookup_isSome_mem k v l h, rfl⟩

theorem try_deserialize_fs_congr (s s' : Store) (fs fs' : FS) (f : String)
    (hname : s'.fname = s.fname) (hfs : assocLookup f fs' = assocLookup f fs) :
    try_deserialize s' fs' f = try_deserialize s fs f := by
  unfold try_deserialize
  rw [hname, hfs]

theorem try_deserialize_ok_file_exists (s : Store) (fs : FS) (f : String) (st : Store)
    (h : try_deserialize s fs f = .ok st) : ∃ bytes, assocLookup f fs = some bytes := by
  cases hb : assocLookup f fs with
  | none =>
    rw [try_deserialize_absent s fs f hb] at h
    exact absurd h (by simp)
  | some bytes => exact ⟨bytes, rfl⟩

theorem insert_no_flush_fields (s : Store) (fs : FS) (t k : Nat) (v : List Nat)
    (fl : Bool) (hc : ¬(s.treesize + 8 + 24 > 80000 ∧ fl = true)) :
    (DingoStore.insert s fs t k v fl).1.objs = mapInsert k v s.objs ∧
    (DingoStore.insert s fs t k v fl).1.index = s.index ∧
    (DingoStore.insert s fs t k v fl).1.fname = s.fname ∧
    (DingoStore.insert s fs t k v fl).2 = fs := by
  simp only [DingoStore.insert, if_neg hc]
  refine ⟨?_, ?_, ?_, ?_⟩ <;> trivial

theorem insert_flush_fields (s : Store) (fs : FS) (t k : Nat) (v : List Nat)
    (fl : Bool) (hc : s.treesize + 8 + 24 > 80000 ∧ fl = true) :
    (DingoStore.insert s fs t k v fl).1.objs = [(k, v)] ∧
    (DingoStore.insert s fs t k v fl).1.index = (flush s fs t).1.index ∧
    (DingoStore.insert s fs t k v fl).1.fname = s.fname ∧
    (DingoStore.insert s fs t k v fl).2 = (flush s fs t).2 := by
  simp only [DingoStore.insert, if_pos hc]
  refine ⟨?_, ?_, ?_, ?_⟩ <;> trivial

/-- One `insert(k, v, true)` of a fresh key preserves the run invariant. -/
theorem step_preserves (s : Store) (fs : FS) (t k : Nat) (v : List Nat)
    (written : List (Nat × List Nat)) (hInv : RunInv s fs written)
    (hknew : k ∉ written.map Prod.fst)
    (hkb : k < 2 ^ 64) (hvb : v.length < 2 ^ 32)
    (hfr : s.treesize + 8 + 24 > 80000 →
      assocLookup (mkDataFname s.fname t) fs = none) :
    RunInv (DingoStore.insert s fs t k v true).1 (DingoStore.insert s fs t k v true).2
      (written ++ [(k, v)]) := by
  by_cases hc : s.treesize + 8 + 24 > 80000
  · -- flush-triggering branch
    obtain ⟨hobjs, hindex, hname, hfs⟩ := insert_flush_fields s fs t k v true ⟨hc, rfl⟩
    have hfresh := hfr hc
    have hseg : assocLookup (mkDataFname s.fname t) (flush s fs t).2
        = some (segBytes s.objs) :=
      fsWrite_lookup_fresh fs (mkDataFname s.fname t) (segBytes s.objs) hfresh
    refine ⟨?_, ?_, ?_⟩
    · intro kv hkv
      rcases List.mem_append.mp hkv with hold | hnewm
      · -- a previously written record
        have hne : kv.1 ≠ k := by
          intro he
          exact hknew (he ▸ List.mem_map.mpr ⟨kv, hold, rfl⟩)
        have hlocal : assocLookup kv.1 [(k, v)] = none := by
          simp [hne]
        rcases hInv.served kv hold with h1 | ⟨h1, f, st, h2, h3, h4⟩
        · -- was in the memtable: now in the freshly flushed segment
          right
          rw [hobjs]
          refine ⟨hlocal, mkDataFname s.fname t,
            { objs := s.objs, keys := s.objs.map Prod.fst,
              fname := (DingoStore.insert s fs t k v true).1.fname,
              treesize := s.objs.foldl (fun a p => a + 8 + p.2.length) 0,
              flushed_files := [], index := [] }, ?_, ?_, h1⟩
          · rw [hindex, flush_index_lookup,
              if_pos (assocLookup_some_mem_fst kv.1 kv.2 s.objs h1)]
          · refine try_deserialize_ok_of_decode _ _ _ (segBytes s.objs) s.objs ?_
              (decodeAll_segBytes s.objs hInv.bounds) hInv.sorted
            rw [hfs]
            exact hseg
        · -- was in an older segment: that file and its index entry survive
          right
          rw [hobjs]
          have hnotin : kv.1 ∉ s.objs.map Prod.fst :=
            (assocLookup_eq_none_iff kv.1 s.objs).mp h1
          obtain ⟨bytes, hbytes⟩ := try_deserialize_ok_file_exists s fs f st h3
          have hfne : f ≠ mkDataFname s.fname t := by
            intro he
            rw [he, hfresh] at hbytes
            exact absurd hbytes (by simp)
          refine ⟨hlocal, f, st, ?_, ?_, h4⟩
          · rw [hindex, flush_index_lookup, if_neg hnotin]
            exact h2
          · rw [← h3]
            refine try_deserialize_fs_congr s _ fs _ f hname ?_
            rw [hfs]
            exact fsWrite_lookup_ne fs (mkDataFname s.fname t) f (segBytes s.objs) hfne
      · -- the record just inserted
        left
        have : kv = (k, v) := by simpa using hnewm
        rw [this, hobjs]
        simp
    · rw [hobjs]
      simp
    · rw [hobjs]
      intro p hp
      simp only [List.mem_singleton] at hp
      rw [hp]
      exact ⟨hkb, hvb⟩
  · -- plain insert, no flush
    have hc' : ¬(s.treesize + 8 + 24 > 80000 ∧ (true : Bool) = true) := by
      intro h
      exact hc h.1
    obtain ⟨hobjs, hindex, hname, hfs⟩ := insert_no_flush_fields s fs t k v true hc'
    refine ⟨?_, ?_, ?_⟩
    · intro kv hkv
      rcases List.mem_append.mp hkv with hold | hnewm
      · have hne : kv.1 ≠ k := by
          intro he
          exact hknew (he ▸ List.mem_map.mpr ⟨kv, hold, rfl⟩)
        rcases hInv.served kv hold with h1 | ⟨h1, f, st, h2, h3, h4⟩
        · left
          rw [hobjs, assocLookup_mapInsert_ne k kv.1 v s.objs hne]
          exact h1
        · right
          rw [hobjs, assocLookup_mapInsert_ne k kv.1 v s.objs hne]
          refine ⟨h1, f, st, ?_, ?_, h4⟩
          · rw [hindex]
            exact h2
          · rw [← h3]
            exact try_deserialize_fs_congr s _ fs _ f hname (by rw [hfs])
      · left
        have : kv = (k, v) := by simpa using hnewm
        rw [this, hobjs]
        exact assocLookup_mapInsert_self k v s.objs
    · rw [hobjs]
      exact mapInsert_pairwise k v s.objs hInv.sorted
    · rw [hobjs]
      intro p hp
      rcases mapInsert_mem_cases k v s.objs p hp with hp' | hp'
      · rw [hp']
        exact ⟨hkb, hvb⟩
      · exact hInv.bounds p hp'

/-- The run invariant holds along any distinct-key run with fresh flush
paths. -/
theorem runInserts_inv (tr : List (Nat × List Nat × Nat)) :
    ∀ (s : Store) (fs : FS) (written : List (Nat × List Nat)),
    RunInv s fs written →
    (∀ op ∈ tr, op.1 < 2 ^ 64 ∧ op.2.1.length < 2 ^ 32) →
    (tr.map (fun op => op.1)).Pairwise (· ≠ ·) →
    (∀ kv ∈ written, kv.1 ∉ tr.map (fun op => op.1)) →
    runFresh s fs tr = true →
    RunInv (runInserts s fs tr).1 (runInserts s fs tr).2
      (written ++ tr.map (fun op => (op.1, op.2.1))) := by
  induction tr with
  | nil =>
    intro s fs written hInv _ _ _ _
    simpa [runInserts] using hInv
  | cons op rest ih =>
    obtain ⟨k, v, t⟩ := op
    intro s fs written hInv hb hdist hdisj hfresh
    rw [runFresh, Bool.and_eq_true] at hfresh
    obtain ⟨hfr1, hfr2⟩ := hfresh
    have hfr : s.treesize + 8 + 24 > 80000 →
        assocLookup (mkDataFname s.fname t) fs = none := by
      intro hgt
      rw [if_pos hgt] at hfr1
      exact of_decide_eq_true hfr1
    have hknew : k ∉ written.map Prod.fst := by
      intro hmem
      obtain ⟨kv, hkv, hfst⟩ := List.mem_map.mp hmem
      exact hdisj kv hkv (by rw [hfst]; simp)
    obtain ⟨hkb, hvb⟩ := hb (k, v, t) (List.mem_cons_self _ _)
    have hstep := step_preserves s fs t k v written hInv hknew hkb hvb hfr
    rw [List.map_cons, List.pairwise_cons] at hdist
    obtain ⟨hdk, hdrest⟩ := hdist
    have hdisj' : ∀ kv ∈ written ++ [(k, v)],
        kv.1 ∉ rest.map (fun op => op.1) := by
      intro kv hkv
      rcases List.mem_append.mp hkv with hold | hnewm
      · intro hmem
        exact hdisj kv hold (by simp [hmem])
      · have : kv = (k, v) := by simpa using hnewm
        rw [this]
        intro hmem
        exact hdk k hmem rfl
    have hb' : ∀ op ∈ rest, op.1 < 2 ^ 64 ∧ op.2.1.length < 2 ^ 32 :=
      fun op hop => hb op (List.mem_cons_of_mem _ hop)
    have := ih (DingoStore.insert s fs t k v true).1
      (DingoStore.insert s fs t k v true).2 (written ++ [(k, v)])
      hstep hb' hdrest hdisj' hfr2
    rw [runInserts]
    simpa [List.append_assoc] using this

/-- Claim C1: on one engine, any sequence of `insert(k_i, v_i, true)` with
pairwise-distinct keys (values within the `u32` length bound, keys `u64`, and
each triggered flush writing to a path that does not already exist) is fully
readable afterwards: `get(k_i)` returns `Some(v_i)` for every i, regardless
of whether intervening flushes occurred. -/
theorem C1_roundtrip (p : String) (fs0 : FS) (tr : List (Nat × List Nat × Nat))
    (hb : ∀ op ∈ tr, op.1 < 2 ^ 64 ∧ op.2.1.length < 2 ^ 32)
    (hdist : (tr.map (fun op => op.1)).Pairwise (· ≠ ·))
    (hfresh : runFresh (newStore p) fs0 tr = true) :
    ∀ op ∈ tr, DingoStore.get (runInserts (newStore p) fs0 tr).1
      (runInserts (newStore p) fs0 tr).2 op.1 = some op.2.1 := by
  have hInv0 : RunInv (newStore p) fs0 [] := by
    refine ⟨by simp, by simp [newStore], ?_⟩
    intro q hq
    simp [newStore] at hq
  have h := runInserts_inv tr (newStore p) fs0 [] hInv0 hb hdist (by simp) hfresh
  intro op hop
  have hmem : (op.1, op.2.1) ∈
      ([] : List (Nat × List Nat)) ++ tr.map (fun op => (op.1, op.2.1)) := by
    simp only [List.nil_append]
    exact List.mem_map.mpr ⟨op, hop, rfl⟩
  rcases h.served (op.1, op.2.1) hmem with h1 | ⟨h1, f, st, h2, h3, h4⟩
  · exact get_objs_some _ _ _ _ h1
  · exact get_via_index _ _ _ _ f st h1 h2 h3 h4

/-- Witness for C1: two distinct keys inserted into a fresh engine over an
empty filesystem; `get 1` returns the first value. -/
theorem C1_roundtrip_witness :
    DingoStore.get
      (runInserts (newStore "p") [] [(1, [97], 0), (2, [98], 1)]).1
      (runInserts (newStore "p") [] [(1, [97], 0), (2, [98], 1)]).2 1 = some [97] :=
  C1_roundtrip "p" [] [(1, [97], 0), (2, [98], 1)] (by decide) (by decide) (by decide)
    (1, [97], 0) (by decide)
